import Mathlib

/-!
Verification development for the quant-pack fake-quantization core.

Tensors are modelled as lists of exact rationals; elementwise kernels are
functions on rationals mapped over those lists.  The numeric gradient
formulas are embedded from src/tests/test_quantizers.py; the operator
entry points absent from src are modelled from the specification
(sections 4.1 to 4.4, 6 and 7) and are marked as such in their doc
comments.
-/

namespace QuantPack

/-- Derived constant N = 2^k - 1, the number of quantization intervals
(spec section 3, data model; test files use n = 2 ** k - 1). -/
def numIntervals (k : ℕ) : ℚ := 2 ^ k - 1

/-- Sign function with the convention sign 0 = 0 (spec section 4.3 edge
case; torch.sign in test_quantizers.py line 105). -/
def signQ (q : ℚ) : ℚ := if q < 0 then -1 else if 0 < q then 1 else 0

/-- Indicator of a boolean mask as a rational, modelling mask.to(dtype)
casts in the tests. -/
def ind (b : Bool) : ℚ := if b then 1 else 0

/-- Modelled from the spec: elementwise forward of the bound-clamp
primitive of section 4.1 (the clamp used by the operators is absent from
src); saturates x into the interval from lb to ub. -/
def clampElem (lb ub x : ℚ) : ℚ := if x < lb then lb else if ub < x then ub else x

/-- In-range mask, from x_mask = (lb <= x) & (x <= ub) in
test_quantizers.py lines 98 and 138. -/
def maskIn (lb ub x : ℚ) : Bool := decide (lb ≤ x) && decide (x ≤ ub)

/-- Upper saturation mask, from mask_up = (x > ub) in test_quantizers.py
line 139. -/
def maskUp (ub x : ℚ) : Bool := decide (ub < x)

/-- Lower saturation mask, from mask_down = (x < lb) in
test_quantizers.py line 140. -/
def maskDown (lb x : ℚ) : Bool := decide (x < lb)

/-- Quantization step delta = (ub - lb) / N (test_quantizers.py lines 94
and 133). -/
def deltaOf (lb ub : ℚ) (k : ℕ) : ℚ := (ub - lb) / numIntervals k

/-- Exact fractional grid index of the clamped value in the free
(non-zero-aligned) variant: t = (clamp(x, lb, ub) - lb) / delta
(test_quantizers.py lines 134 to 137). -/
def tOf (lb ub : ℚ) (k : ℕ) (x : ℚ) : ℚ :=
  (clampElem lb ub x - lb) / deltaOf lb ub k

/-- Rounding-error term qi_diff = round t - t of the free variant
(test_quantizers.py line 137; spec section 4.4). -/
def qi_diff (lb ub : ℚ) (k : ℕ) (x : ℚ) : ℚ :=
  (round (tOf lb ub k x) : ℚ) - tOf lb ub k x

/-- Elementwise forward of the free variant: clamp, index, dequantize
(test_quantizers.py lines 133 to 135; spec section 4.4). -/
def freeQuantElem (lb ub : ℚ) (k : ℕ) (x : ℚ) : ℚ :=
  (round (tOf lb ub k x) : ℚ) * deltaOf lb ub k + lb

/-- Zero-point shift z = round(|lb| / delta) of the zero-aligned variant
(test_quantizers.py line 95; spec section 4.3 step 2). -/
def zOf (lb ub : ℚ) (k : ℕ) : ℤ := round (|lb| / deltaOf lb ub k)

/-- Adjusted lower bound of the zero-aligned variant: lb_ = -z * delta
(test_quantizers.py line 96; spec section 4.3 step 3). -/
def lbAdj (lb ub : ℚ) (k : ℕ) : ℚ := -(zOf lb ub k : ℚ) * deltaOf lb ub k

/-- Adjusted upper bound of the zero-aligned variant: ub_ = (N - z) * delta
(test_quantizers.py line 97; spec section 4.3 step 3). -/
def ubAdj (lb ub : ℚ) (k : ℕ) : ℚ :=
  (numIntervals k - (zOf lb ub k : ℚ)) * deltaOf lb ub k

/-- Clamped input of the zero-aligned variant (test_quantizers.py
line 99). -/
def xcA (lb ub : ℚ) (k : ℕ) (x : ℚ) : ℚ :=
  clampElem (lbAdj lb ub k) (ubAdj lb ub k) x

/-- Integer grid index of the zero-aligned variant: i = round((xc - lb_) / delta)
(test_quantizers.py line 100). -/
def iA (lb ub : ℚ) (k : ℕ) (x : ℚ) : ℤ :=
  round ((xcA lb ub k x - lbAdj lb ub k) / deltaOf lb ub k)

/-- Elementwise forward of the zero-aligned variant: y = lb_ + i * delta
(spec section 4.3 step 4). -/
def alignedQuantElem (lb ub : ℚ) (k : ℕ) (x : ℚ) : ℚ :=
  lbAdj lb ub k + (iA lb ub k x : ℚ) * deltaOf lb ub k

/-- Rounding-sensitivity term of the zero-aligned backward:
x_sub = xc - lb_ - |lb| and d_i = (i - z) - x_sub / delta
(test_quantizers.py lines 103 and 104; spec section 4.3). -/
def d_i (lb ub : ℚ) (k : ℕ) (x : ℚ) : ℚ :=
  ((iA lb ub k x : ℚ) - (zOf lb ub k : ℚ)) -
    (xcA lb ub k x - lbAdj lb ub k - |lb|) / deltaOf lb ub k

/-- Modelled from the spec: the operator forward fake_linear_quant
(quant_pack.core.quant.functional is absent from src); dispatches on the
align_zero mode flag and maps the elementwise forward over the tensor
(spec sections 4.3 and 4.4). -/
def fake_linear_quant (xs : List ℚ) (lb ub : ℚ) (k : ℕ) (align_zero : Bool) :
    List ℚ :=
  if align_zero then xs.map (alignedQuantElem lb ub k)
  else xs.map (freeQuantElem lb ub k)

/-- Modelled from the spec: the guarded entry point fake_quantize of
section 6, raising InvalidBoundsError when ub is not above lb and
InvalidBitWidthError when k < 1 (spec section 7); the happy path runs
the unguarded operator. -/
def fake_quantize (xs : List ℚ) (lb ub : ℚ) (k : ℕ) (align_zero : Bool) :
    Except String (List ℚ) :=
  if ub ≤ lb then Except.error "InvalidBoundsError"
  else if k < 1 then Except.error "InvalidBitWidthError"
  else Except.ok (fake_linear_quant xs lb ub k align_zero)

/-- Helper d_lb_ub embedded from src/tests/test_quantizers.py lines 42
to 47: elementwise d_delta = dy * d_i, d_ub = d_delta / N,
d_lb = -d_ub - dy * sign_lb, each then summed; returns (d_lb, d_ub). -/
def d_lb_ub (dy di : List ℚ) (n s : ℚ) : ℚ × ℚ :=
  ((List.zipWith (fun a b => -(a * b / n) - a * s) dy di).sum,
   (List.zipWith (fun a b => a * b / n) dy di).sum)

/-- Helper d_x embedded from src/tests/test_quantizers.py lines 50 to
52: dx = dy * mask. -/
def d_x (dy : List ℚ) (mask : List Bool) : List ℚ :=
  List.zipWith (fun a m => a * ind m) dy mask

/-- Backward of the zero-aligned variant as computed stepwise by the
numerical-gradient reference in src/tests/test_quantizers.py lines 92
to 106; returns (dx, d_lb, d_ub). -/
def alignZeroGrads (xs dys : List ℚ) (lb ub : ℚ) (k : ℕ) :
    List ℚ × ℚ × ℚ :=
  let dlu := d_lb_ub dys (xs.map (d_i lb ub k)) (numIntervals k) (signQ lb)
  (d_x dys (xs.map (maskIn (lbAdj lb ub k) (ubAdj lb ub k))), dlu.1, dlu.2)

/-- Backward of the free variant as computed by the reference block in
src/tests/test_quantizers.py lines 136 to 151 (two separate sums with
the division applied elementwise); returns (dx, d_lb, d_ub). -/
def freeGrads (xs dys : List ℚ) (lb ub : ℚ) (k : ℕ) : List ℚ × ℚ × ℚ :=
  let n := numIntervals k
  let up := (List.zipWith (fun x dy => dy * ind (maskUp ub x)) xs dys).sum
  let down := (List.zipWith (fun x dy => dy * ind (maskDown lb x)) xs dys).sum
  let qi := (List.zipWith (fun x dy => dy * qi_diff lb ub k x / n) xs dys).sum
  (d_x dys (xs.map (maskIn lb ub)), down - qi, up + qi)

/-- Backward of the clamp primitive as checked by
src/tests/test_quantizers.py lines 292 to 296 together with the d_x
helper; returns (dx, d_lb, d_ub). -/
def clampGrads (xs dys : List ℚ) (lb ub : ℚ) : List ℚ × ℚ × ℚ :=
  (d_x dys (xs.map (maskIn lb ub)),
   (List.zipWith (fun x dy => dy * ind (maskDown lb x)) xs dys).sum,
   (List.zipWith (fun x dy => dy * ind (maskUp ub x)) xs dys).sum)

/-- Clamp forward over a tensor with scalar bounds (spec section 4.1). -/
def clamp (xs : List ℚ) (lb ub : ℚ) : List ℚ := xs.map (clampElem lb ub)

/-- Modelled from the spec: elementwise forward of the fused closed-form
kernel cuda_fake_linear_quant (the CUDA kernel behind
quant_pack.core.quant.functional is absent from src); computes the
output in one closed expression, in the zero-aligned case directly as
(i - z) * delta (spec sections 4.3, 4.4 and 4.6). -/
def cudaFusedForwardElem (az : Bool) (lb ub : ℚ) (k : ℕ) (x : ℚ) : ℚ :=
  if az then ((iA lb ub k x : ℚ) - (zOf lb ub k : ℚ)) * deltaOf lb ub k
  else (round (tOf lb ub k x) : ℚ) * deltaOf lb ub k + lb

/-- Modelled from the spec: tensor-level forward of the fused kernel. -/
def cuda_fake_linear_quant (xs : List ℚ) (lb ub : ℚ) (k : ℕ) (az : Bool) :
    List ℚ :=
  xs.map (cudaFusedForwardElem az lb ub k)

/-- Elementwise contribution of one tensor element to d_ub (closed form:
spec section 4.3 for the zero-aligned case, section 4.4 and
test_quantizers.py line 199 for the free case). -/
def dubElem (az : Bool) (lb ub : ℚ) (k : ℕ) (x dy : ℚ) : ℚ :=
  if az then dy * d_i lb ub k x / numIntervals k
  else dy * ind (maskUp ub x) + dy * qi_diff lb ub k x / numIntervals k

/-- Elementwise contribution of one tensor element to d_lb (closed form:
spec section 4.3 for the zero-aligned case, section 4.4 and
test_quantizers.py line 200 for the free case). -/
def dlbElem (az : Bool) (lb ub : ℚ) (k : ℕ) (x dy : ℚ) : ℚ :=
  if az then -(dy * d_i lb ub k x / numIntervals k) - dy * signQ lb
  else dy * ind (maskDown lb x) - dy * qi_diff lb ub k x / numIntervals k

/-- Elementwise input gradient dx = dy * mask, with the mask taken
against the adjusted bounds in the zero-aligned case (spec sections 4.3
and 4.4). -/
def dxElem (az : Bool) (lb ub : ℚ) (k : ℕ) (x dy : ℚ) : ℚ :=
  if az then dy * ind (maskIn (lbAdj lb ub k) (ubAdj lb ub k) x)
  else dy * ind (maskIn lb ub x)

/-- Modelled from the spec: backward of the fused closed-form kernel,
computing each of the three gradients directly from the spec formulas
(sections 4.3 and 4.4): in the zero-aligned case
d_ub = sum(dy * d_i) / N and d_lb = -d_ub - sum(dy * sign lb), in the
free case d_ub = sum(dy * mask_up) + sum(dy * qi_diff) / N and
d_lb = sum(dy * mask_down) - sum(dy * qi_diff) / N; returns
(dx, d_lb, d_ub). -/
def cudaFusedBackward (xs dys : List ℚ) (lb ub : ℚ) (k : ℕ) (az : Bool) :
    List ℚ × ℚ × ℚ :=
  let dx := List.zipWith (fun x dy => dxElem az lb ub k x dy) xs dys
  if az then
    let dub := (List.zipWith (fun x dy => dy * d_i lb ub k x) xs dys).sum /
      numIntervals k
    (dx, -dub - (dys.map (fun dy => dy * signQ lb)).sum, dub)
  else
    let qi := (List.zipWith (fun x dy => dy * qi_diff lb ub k x) xs dys).sum /
      numIntervals k
    (dx,
     (List.zipWith (fun x dy => dy * ind (maskDown lb x)) xs dys).sum - qi,
     (List.zipWith (fun x dy => dy * ind (maskUp ub x)) xs dys).sum + qi)

/-- Modelled from the spec: backward of the grid-quantizer stage of
section 4.2 for one element, as the three partials of
y = lb + round(t) * delta under the straight-through estimator: the
gradient to the clamped input is dy (round treated as identity), the
gradient to delta carries the rounding-error term qi_diff, and the
direct gradient to the offset lb cancels to dy * 0 because the
derivative of t with respect to lb is -1 / delta. -/
def gridDxcElem (dy : ℚ) : ℚ := dy * 1

/-- Modelled from the spec: delta partial of the grid-quantizer backward
(section 4.2), dy * qi_diff. -/
def gridDdeltaElem (lb ub : ℚ) (k : ℕ) (x dy : ℚ) : ℚ :=
  dy * qi_diff lb ub k x

/-- Modelled from the spec: direct offset partial of the grid-quantizer
backward (section 4.2), which vanishes under the straight-through
estimator. -/
def gridDlbElem (dy : ℚ) : ℚ := dy * 0

/-- Modelled from the spec: reference backward for the free variant,
composed from the separate differentiable steps of sections 4.1 and
4.2: the grid stage sends dy through to the clamp stage and routes its
delta partial through delta = (ub - lb) / N, and the clamp stage routes
saturation gradient to the bounds; returns (dx, d_lb, d_ub). -/
def refFreeGrads (xs dys : List ℚ) (lb ub : ℚ) (k : ℕ) :
    List ℚ × ℚ × ℚ :=
  let n := numIntervals k
  let dxc := dys.map gridDxcElem
  let dDelta := (List.zipWith (fun x dy => gridDdeltaElem lb ub k x dy) xs dys).sum
  let dlbDirect := (dys.map gridDlbElem).sum
  let c := clampGrads xs dxc lb ub
  (c.1, c.2.1 + dlbDirect + -dDelta / n, c.2.2 + dDelta / n)

/-! Helper lemmas, shared by the claim theorems below. -/

lemma round_monotone {x y : ℚ} (h : x ≤ y) : round x ≤ round y := by
  rw [round_eq, round_eq]
  exact Int.floor_mono (by linarith)

lemma numIntervals_eq_intCast (k : ℕ) :
    numIntervals k = ((2 ^ k - 1 : ℤ) : ℚ) := by
  unfold numIntervals; push_cast; ring

lemma one_le_numIntervals {k : ℕ} (hk : 1 ≤ k) : 1 ≤ numIntervals k := by
  unfold numIntervals
  have h2 : (2 : ℚ) ^ 1 ≤ 2 ^ k := by
    apply pow_le_pow_right₀ (by norm_num) hk
  simp only [pow_one] at h2
  linarith

lemma numIntervals_pos {k : ℕ} (hk : 1 ≤ k) : 0 < numIntervals k :=
  lt_of_lt_of_le one_pos (one_le_numIntervals hk)

lemma round_numIntervals (k : ℕ) : round (numIntervals k) = 2 ^ k - 1 := by
  rw [numIntervals_eq_intCast, round_intCast]

lemma deltaOf_pos {lb ub : ℚ} {k : ℕ} (hk : 1 ≤ k) (h : lb < ub) :
    0 < deltaOf lb ub k :=
  div_pos (by linarith) (numIntervals_pos hk)

lemma le_clampElem {lb ub x : ℚ} (h : lb ≤ ub) : lb ≤ clampElem lb ub x := by
  unfold clampElem; split_ifs <;> linarith

lemma clampElem_le {lb ub x : ℚ} (h : lb ≤ ub) : clampElem lb ub x ≤ ub := by
  unfold clampElem; split_ifs <;> linarith

lemma clampElem_of_mem {lb ub x : ℚ} (h1 : lb ≤ x) (h2 : x ≤ ub) :
    clampElem lb ub x = x := by
  unfold clampElem; split_ifs <;> linarith

lemma clampElem_eq_min_max {lb ub : ℚ} (x : ℚ) (h : lb ≤ ub) :
    clampElem lb ub x = min (max x lb) ub := by
  unfold clampElem
  rcases lt_trichotomy x lb with h1 | h1 | h1
  · rw [if_pos h1, max_eq_right h1.le, min_eq_left h]
  · subst h1
    rw [if_neg (lt_irrefl x), max_self]
    split_ifs with h2
    · exact (min_eq_right h2.le).symm
    · exact (min_eq_left (le_of_not_lt h2)).symm
  · rw [if_neg (not_lt.mpr h1.le), max_eq_left h1.le]
    split_ifs with h2
    · exact (min_eq_right h2.le).symm
    · exact (min_eq_left (le_of_not_lt h2)).symm

lemma ubAdj_sub_lbAdj (lb ub : ℚ) (k : ℕ) :
    ubAdj lb ub k - lbAdj lb ub k = numIntervals k * deltaOf lb ub k := by
  unfold ubAdj lbAdj; ring

lemma lbAdj_le_ubAdj {lb ub : ℚ} {k : ℕ} (hk : 1 ≤ k) (h : lb < ub) :
    lbAdj lb ub k ≤ ubAdj lb ub k := by
  have hd := deltaOf_pos hk h
  have hn := numIntervals_pos hk
  nlinarith [ubAdj_sub_lbAdj lb ub k]

lemma sum_zipWith_add (f g : ℚ → ℚ → ℚ) :
    ∀ (xs ys : List ℚ),
      (List.zipWith (fun a b => f a b + g a b) xs ys).sum =
        (List.zipWith f xs ys).sum + (List.zipWith g xs ys).sum := by
  intro xs
  induction xs with
  | nil => intro ys; simp
  | cons x xs ih =>
    intro ys
    cases ys with
    | nil => simp
    | cons y ys => simp [ih ys]; ring

lemma sum_zipWith_sub (f g : ℚ → ℚ → ℚ) :
    ∀ (xs ys : List ℚ),
      (List.zipWith (fun a b => f a b - g a b) xs ys).sum =
        (List.zipWith f xs ys).sum - (List.zipWith g xs ys).sum := by
  intro xs
  induction xs with
  | nil => intro ys; simp
  | cons x xs ih =>
    intro ys
    cases ys with
    | nil => simp
    | cons y ys => simp [ih ys]; ring

lemma sum_zipWith_div (f : ℚ → ℚ → ℚ) (c : ℚ) :
    ∀ (xs ys : List ℚ),
      (List.zipWith (fun a b => f a b / c) xs ys).sum =
        (List.zipWith f xs ys).sum / c := by
  intro xs
  induction xs with
  | nil => intro ys; simp
  | cons x xs ih =>
    intro ys
    cases ys with
    | nil => simp
    | cons y ys => simp [ih ys]; ring

lemma sum_zipWith_neg (f : ℚ → ℚ → ℚ) :
    ∀ (xs ys : List ℚ),
      (List.zipWith (fun a b => -(f a b)) xs ys).sum =
        -(List.zipWith f xs ys).sum := by
  intro xs
  induction xs with
  | nil => intro ys; simp
  | cons x xs ih =>
    intro ys
    cases ys with
    | nil => simp
    | cons y ys => simp [ih ys]; ring

lemma sum_map_eq_sum_zipWith (f : ℚ → ℚ) :
    ∀ (xs ys : List ℚ), xs.length = ys.length →
      (ys.map f).sum = (List.zipWith (fun _ b => f b) xs ys).sum := by
  intro xs
  induction xs with
  | nil =>
    intro ys h
    cases ys with
    | nil => simp
    | cons y ys => simp at h
  | cons x xs ih =>
    intro ys h
    cases ys with
    | nil => simp at h
    | cons y ys =>
      simp only [List.length_cons, Nat.succ_inj] at h
      simp [ih ys h]

lemma zipWith_swap_map {α β γ δ : Type} (f : β → γ → δ) (g : α → γ) :
    ∀ (xs : List α) (ys : List β),
      List.zipWith f ys (xs.map g) =
        List.zipWith (fun x y => f y (g x)) xs ys := by
  intro xs
  induction xs with
  | nil => intro ys; cases ys <;> simp
  | cons x xs ih =>
    intro ys
    cases ys with
    | nil => simp
    | cons y ys => simp [ih ys]

lemma zipWith_congr_fn {α β γ : Type} (f g : α → β → γ)
    (h : ∀ a b, f a b = g a b) :
    ∀ (xs : List α) (ys : List β),
      List.zipWith f xs ys = List.zipWith g xs ys := by
  intro xs
  induction xs with
  | nil => intro ys; simp
  | cons x xs ih =>
    intro ys
    cases ys with
    | nil => simp
    | cons y ys => simp [h, ih ys]

lemma div_delta_self {lb ub : ℚ} {k : ℕ} (h : lb < ub) :
    (ub - lb) / deltaOf lb ub k = numIntervals k := by
  unfold deltaOf
  rw [div_div_eq_mul_div, mul_comm, mul_div_assoc,
    div_self (ne_of_gt (sub_pos.mpr h)), mul_one]

lemma tOf_nonneg {lb ub x : ℚ} {k : ℕ} (hk : 1 ≤ k) (h : lb < ub) :
    0 ≤ tOf lb ub k x := by
  unfold tOf
  apply div_nonneg _ (deltaOf_pos hk h).le
  have := le_clampElem (x := x) h.le
  linarith

lemma tOf_le {lb ub x : ℚ} {k : ℕ} (hk : 1 ≤ k) (h : lb < ub) :
    tOf lb ub k x ≤ numIntervals k := by
  unfold tOf
  rw [← div_delta_self (k := k) h]
  apply (div_le_div_iff_of_pos_right (deltaOf_pos hk h)).mpr
  have := clampElem_le (x := x) h.le
  linarith

lemma roundT_nonneg {lb ub x : ℚ} {k : ℕ} (hk : 1 ≤ k) (h : lb < ub) :
    0 ≤ round (tOf lb ub k x) := by
  have := round_monotone (tOf_nonneg (x := x) hk h)
  rwa [round_zero] at this

lemma roundT_le {lb ub x : ℚ} {k : ℕ} (hk : 1 ≤ k) (h : lb < ub) :
    round (tOf lb ub k x) ≤ 2 ^ k - 1 := by
  have := round_monotone (tOf_le (x := x) hk h)
  rwa [round_numIntervals] at this

lemma numIntervals_mul_delta {lb ub : ℚ} {k : ℕ} (hk : 1 ≤ k) :
    numIntervals k * deltaOf lb ub k = ub - lb := by
  unfold deltaOf
  rw [mul_div_assoc', mul_comm, mul_div_assoc,
    div_self (ne_of_gt (numIntervals_pos hk)), mul_one]

lemma tA_nonneg {lb ub x : ℚ} {k : ℕ} (hk : 1 ≤ k) (h : lb < ub) :
    0 ≤ (xcA lb ub k x - lbAdj lb ub k) / deltaOf lb ub k := by
  apply div_nonneg _ (deltaOf_pos hk h).le
  have := le_clampElem (x := x) (lbAdj_le_ubAdj hk h)
  unfold xcA
  linarith

lemma tA_le {lb ub x : ℚ} {k : ℕ} (hk : 1 ≤ k) (h : lb < ub) :
    (xcA lb ub k x - lbAdj lb ub k) / deltaOf lb ub k ≤ numIntervals k := by
  have hd := deltaOf_pos hk h
  have hub := clampElem_le (x := x) (lbAdj_le_ubAdj hk h)
  have key : (ubAdj lb ub k - lbAdj lb ub k) / deltaOf lb ub k =
      numIntervals k := by
    rw [ubAdj_sub_lbAdj, mul_div_assoc, div_self (ne_of_gt hd), mul_one]
  rw [← key]
  apply (div_le_div_iff_of_pos_right hd).mpr
  unfold xcA
  linarith

lemma iA_nonneg {lb ub x : ℚ} {k : ℕ} (hk : 1 ≤ k) (h : lb < ub) :
    0 ≤ iA lb ub k x := by
  have := round_monotone (tA_nonneg (x := x) hk h)
  rwa [round_zero] at this

lemma iA_le {lb ub x : ℚ} {k : ℕ} (hk : 1 ≤ k) (h : lb < ub) :
    iA lb ub k x ≤ 2 ^ k - 1 := by
  have := round_monotone (tA_le (x := x) hk h)
  rwa [round_numIntervals] at this

lemma freeQuantElem_idem {lb ub x : ℚ} {k : ℕ} (hk : 1 ≤ k) (h : lb < ub) :
    freeQuantElem lb ub k (freeQuantElem lb ub k x) =
      freeQuantElem lb ub k x := by
  have hd := deltaOf_pos hk h
  have hr0 : (0 : ℚ) ≤ (round (tOf lb ub k x) : ℚ) := by
    exact_mod_cast roundT_nonneg (x := x) hk h
  have hrn : ((round (tOf lb ub k x) : ℤ) : ℚ) ≤ numIntervals k := by
    rw [numIntervals_eq_intCast]
    exact_mod_cast roundT_le (x := x) hk h
  set y := freeQuantElem lb ub k x with hy
  have hy1 : lb ≤ y := by
    rw [hy]
    unfold freeQuantElem
    nlinarith
  have hy2 : y ≤ ub := by
    rw [hy]
    unfold freeQuantElem
    nlinarith [@numIntervals_mul_delta lb ub k hk]
  have ht : tOf lb ub k y = (round (tOf lb ub k x) : ℚ) := by
    unfold tOf
    rw [clampElem_of_mem hy1 hy2, hy]
    unfold freeQuantElem
    have step : (round (tOf lb ub k x) : ℚ) * deltaOf lb ub k + lb - lb =
        (round (tOf lb ub k x) : ℚ) * deltaOf lb ub k := by ring
    rw [step, mul_div_assoc, div_self (ne_of_gt hd), mul_one]
    rfl
  conv_lhs => unfold freeQuantElem
  rw [ht, round_intCast]
  rw [hy]
  unfold freeQuantElem
  ring

lemma alignedQuantElem_idem {lb ub x : ℚ} {k : ℕ} (hk : 1 ≤ k)
    (h : lb < ub) :
    alignedQuantElem lb ub k (alignedQuantElem lb ub k x) =
      alignedQuantElem lb ub k x := by
  have hd := deltaOf_pos hk h
  have hi0 : (0 : ℚ) ≤ (iA lb ub k x : ℚ) := by
    exact_mod_cast iA_nonneg (x := x) hk h
  have hin : ((iA lb ub k x : ℤ) : ℚ) ≤ numIntervals k := by
    rw [numIntervals_eq_intCast]
    exact_mod_cast iA_le (x := x) hk h
  set y := alignedQuantElem lb ub k x with hy
  have hy1 : lbAdj lb ub k ≤ y := by
    rw [hy]
    unfold alignedQuantElem
    nlinarith
  have hy2 : y ≤ ubAdj lb ub k := by
    have hsub := ubAdj_sub_lbAdj lb ub k
    rw [hy]
    unfold alignedQuantElem
    nlinarith
  have hxc : xcA lb ub k y = y := by
    unfold xcA
    exact clampElem_of_mem hy1 hy2
  have hiy : iA lb ub k y = iA lb ub k x := by
    unfold iA
    rw [hxc, hy]
    unfold alignedQuantElem
    have : lbAdj lb ub k + (iA lb ub k x : ℚ) * deltaOf lb ub k -
        lbAdj lb ub k = (iA lb ub k x : ℚ) * deltaOf lb ub k := by ring
    rw [this, mul_div_assoc, div_self (ne_of_gt hd), mul_one, round_intCast]
    rfl
  conv_lhs => unfold alignedQuantElem
  rw [hiy, hy]
  unfold alignedQuantElem
  rfl

lemma mul_ind_maskIn (lb ub x dy : ℚ) :
    dy * ind (maskIn lb ub x) = if lb ≤ x ∧ x ≤ ub then dy else 0 := by
  unfold ind maskIn
  by_cases h1 : lb ≤ x <;> by_cases h2 : x ≤ ub <;> simp [h1, h2]

lemma mul_ind_maskUp (ub x dy : ℚ) :
    dy * ind (maskUp ub x) = dy * (if ub < x then 1 else 0) := by
  unfold ind maskUp
  by_cases h1 : ub < x <;> simp [h1]

lemma mul_ind_maskDown (lb x dy : ℚ) :
    dy * ind (maskDown lb x) = dy * (if x < lb then 1 else 0) := by
  unfold ind maskDown
  by_cases h1 : x < lb <;> simp [h1]

/-- Claim C5: the clamp primitive computes y = min(max(x, lb), ub)
elementwise, and its backward routes dy to dx where lb ≤ x ≤ ub and 0
elsewhere, the full upstream gradient of each element strictly above ub
into the d_ub sum, and of each element strictly below lb into the d_lb
sum. -/
theorem claim_C5_clamp_contract (xs dys : List ℚ) (lb ub : ℚ)
    (h : lb ≤ ub) :
    clamp xs lb ub = xs.map (fun x => min (max x lb) ub) ∧
    (clampGrads xs dys lb ub).1 =
      List.zipWith (fun x dy => if lb ≤ x ∧ x ≤ ub then dy else 0) xs dys ∧
    (clampGrads xs dys lb ub).2.2 =
      (List.zipWith (fun x dy => dy * (if ub < x then 1 else 0)) xs dys).sum ∧
    (clampGrads xs dys lb ub).2.1 =
      (List.zipWith (fun x dy => dy * (if x < lb then 1 else 0)) xs dys).sum := by
  refine ⟨?_, ?_, ?_, ?_⟩
  · unfold clamp
    have hfn : clampElem lb ub = fun x => min (max x lb) ub :=
      funext fun x => clampElem_eq_min_max x h
    rw [hfn]
  · show d_x dys (xs.map (maskIn lb ub)) = _
    unfold d_x
    rw [zipWith_swap_map]
    exact zipWith_congr_fn _ _ (fun x dy => mul_ind_maskIn lb ub x dy) xs dys
  · show (List.zipWith (fun x dy => dy * ind (maskUp ub x)) xs dys).sum = _
    rw [zipWith_congr_fn _ _ (fun x dy => mul_ind_maskUp ub x dy) xs dys]
  · show (List.zipWith (fun x dy => dy * ind (maskDown lb x)) xs dys).sum = _
    rw [zipWith_congr_fn _ _ (fun x dy => mul_ind_maskDown lb x dy) xs dys]

/-- Witness for claim C5 at a concrete input: one element below, one
inside, one above the bounds. -/
theorem claim_C5_witness :
    clamp [-2, 1/2, 3] 0 1 = [-2, 1/2, 3].map (fun x => min (max x 0) 1) ∧
    (clampGrads [-2, 1/2, 3] [5, 7, 11] 0 1).1 =
      List.zipWith (fun x dy => if (0:ℚ) ≤ x ∧ x ≤ 1 then dy else 0)
        [-2, 1/2, 3] [5, 7, 11] ∧
    (clampGrads [-2, 1/2, 3] [5, 7, 11] 0 1).2.2 =
      (List.zipWith (fun x dy => dy * (if (1:ℚ) < x then 1 else 0))
        [-2, 1/2, 3] [5, 7, 11]).sum ∧
    (clampGrads [-2, 1/2, 3] [5, 7, 11] 0 1).2.1 =
      (List.zipWith (fun x dy => dy * (if x < (0:ℚ) then 1 else 0))
        [-2, 1/2, 3] [5, 7, 11]).sum :=
  claim_C5_clamp_contract [-2, 1/2, 3] [5, 7, 11] 0 1 (by norm_num)

/-- Claim C10: for lb ≤ ub the three backward masks are mutually
exclusive and exhaustive, the upstream gradient is routed to exactly one
of the three destinations, and an element exactly at lb or ub is
in-range (it feeds dx and contributes to neither saturation sum). -/
theorem claim_C10_mask_trichotomy (lb ub x dy : ℚ) (h : lb ≤ ub) :
    ind (maskIn lb ub x) + ind (maskUp ub x) + ind (maskDown lb x) = 1 ∧
    ((maskIn lb ub x = true ∧ maskUp ub x = false ∧ maskDown lb x = false) ∨
     (maskIn lb ub x = false ∧ maskUp ub x = true ∧ maskDown lb x = false) ∨
     (maskIn lb ub x = false ∧ maskUp ub x = false ∧ maskDown lb x = true)) ∧
    dy = dy * ind (maskIn lb ub x) + dy * ind (maskUp ub x) +
      dy * ind (maskDown lb x) ∧
    ((x = lb ∨ x = ub) →
      maskIn lb ub x = true ∧ maskUp ub x = false ∧ maskDown lb x = false) := by
  have cases3 : (lb ≤ x ∧ x ≤ ub) ∨ (ub < x ∧ ¬ x < lb) ∨
      (x < lb ∧ ¬ ub < x) := by
    rcases le_or_lt lb x with h1 | h1
    · rcases le_or_lt x ub with h2 | h2
      · exact Or.inl ⟨h1, h2⟩
      · exact Or.inr (Or.inl ⟨h2, by linarith⟩)
    · exact Or.inr (Or.inr ⟨h1, by linarith⟩)
  unfold maskIn maskUp maskDown ind
  rcases cases3 with ⟨h1, h2⟩ | ⟨h1, h2⟩ | ⟨h1, h2⟩
  · have h3 : ¬ ub < x := not_lt.mpr h2
    have h4 : ¬ x < lb := not_lt.mpr h1
    refine ⟨by simp [h1, h2, h3, h4], ?_, by simp [h1, h2, h3, h4], ?_⟩
    · left; simp [h1, h2, h3, h4]
    · intro hx; simp [h1, h2, h3, h4]
  · refine ⟨by simp [h1, h2, not_le.mpr h1], ?_, ?_, ?_⟩
    · right; left; simp [h1, h2, not_le.mpr h1]
    · simp [h1, h2, not_le.mpr h1]
    · rintro (hx | hx) <;> (subst hx; exfalso) <;> linarith
  · refine ⟨by simp [h1, h2, not_le.mpr h1], ?_, ?_, ?_⟩
    · right; right; simp [h1, h2, not_le.mpr h1]
    · simp [h1, h2, not_le.mpr h1]
    · rintro (hx | hx) <;> (subst hx; exfalso) <;> linarith

/-- Witness for claim C10 at a boundary element x = ub. -/
theorem claim_C10_witness :
    ind (maskIn 0 1 1) + ind (maskUp 1 1) + ind (maskDown 0 1) = 1 ∧
    ((maskIn 0 1 1 = true ∧ maskUp 1 1 = false ∧ maskDown 0 1 = false) ∨
     (maskIn 0 1 1 = false ∧ maskUp 1 1 = true ∧ maskDown 0 1 = false) ∨
     (maskIn 0 1 1 = false ∧ maskUp 1 1 = false ∧ maskDown 0 1 = true)) ∧
    (7 : ℚ) = 7 * ind (maskIn 0 1 1) + 7 * ind (maskUp 1 1) +
      7 * ind (maskDown 0 1) ∧
    (((1:ℚ) = 0 ∨ (1:ℚ) = 1) →
      maskIn 0 1 1 = true ∧ maskUp 1 1 = false ∧ maskDown 0 1 = false) :=
  claim_C10_mask_trichotomy 0 1 1 7 (by norm_num)

/-- Claim C3: for the free operator the backward pass computes
d_ub = sum(dy * mask_up) + sum(dy * qi_diff) / N,
d_lb = sum(dy * mask_down) - sum(dy * qi_diff) / N, and
dx = dy inside the bounds and 0 elsewhere. -/
theorem claim_C3_free_backward (xs dys : List ℚ) (lb ub : ℚ) (k : ℕ)
    (hk : 1 ≤ k) (h : lb < ub) :
    (freeGrads xs dys lb ub k).2.2 =
      (List.zipWith (fun x dy => dy * ind (maskUp ub x)) xs dys).sum +
        (List.zipWith (fun x dy => dy * qi_diff lb ub k x) xs dys).sum /
          numIntervals k ∧
    (freeGrads xs dys lb ub k).2.1 =
      (List.zipWith (fun x dy => dy * ind (maskDown lb x)) xs dys).sum -
        (List.zipWith (fun x dy => dy * qi_diff lb ub k x) xs dys).sum /
          numIntervals k ∧
    (freeGrads xs dys lb ub k).1 =
      List.zipWith (fun x dy => if lb ≤ x ∧ x ≤ ub then dy else 0) xs dys := by
  have hqi := sum_zipWith_div (fun x dy => dy * qi_diff lb ub k x)
    (numIntervals k) xs dys
  refine ⟨?_, ?_, ?_⟩
  · show (List.zipWith (fun x dy => dy * ind (maskUp ub x)) xs dys).sum +
      (List.zipWith (fun x dy => dy * qi_diff lb ub k x / numIntervals k)
        xs dys).sum = _
    rw [hqi]
  · show (List.zipWith (fun x dy => dy * ind (maskDown lb x)) xs dys).sum -
      (List.zipWith (fun x dy => dy * qi_diff lb ub k x / numIntervals k)
        xs dys).sum = _
    rw [hqi]
  · show d_x dys (xs.map (maskIn lb ub)) = _
    unfold d_x
    rw [zipWith_swap_map]
    exact zipWith_congr_fn _ _ (fun x dy => mul_ind_maskIn lb ub x dy) xs dys

/-- Witness for claim C3 at a concrete input with one element in each
mask region. -/
theorem claim_C3_witness :
    (freeGrads [1/3, 7/3, -1] [1, 1, 1] 0 1 1).2.2 =
      (List.zipWith (fun x dy => dy * ind (maskUp 1 x))
        [1/3, 7/3, -1] [1, 1, 1]).sum +
        (List.zipWith (fun x dy => dy * qi_diff 0 1 1 x)
          [1/3, 7/3, -1] [1, 1, 1]).sum / numIntervals 1 ∧
    (freeGrads [1/3, 7/3, -1] [1, 1, 1] 0 1 1).2.1 =
      (List.zipWith (fun x dy => dy * ind (maskDown 0 x))
        [1/3, 7/3, -1] [1, 1, 1]).sum -
        (List.zipWith (fun x dy => dy * qi_diff 0 1 1 x)
          [1/3, 7/3, -1] [1, 1, 1]).sum / numIntervals 1 ∧
    (freeGrads [1/3, 7/3, -1] [1, 1, 1] 0 1 1).1 =
      List.zipWith (fun x dy => if (0:ℚ) ≤ x ∧ x ≤ 1 then dy else 0)
        [1/3, 7/3, -1] [1, 1, 1] :=
  claim_C3_free_backward [1/3, 7/3, -1] [1, 1, 1] 0 1 1 (le_refl 1)
    (by norm_num)

/-- Claim C2: for the zero-aligned operator the backward pass computes
d_ub = sum(dy * d_i) / N, d_lb = -d_ub - sum(dy * sign lb) with the
convention sign 0 = 0, and dx = dy inside the adjusted bounds and 0
elsewhere. -/
theorem claim_C2_aligned_backward (xs dys : List ℚ) (lb ub : ℚ) (k : ℕ)
    (hk : 1 ≤ k) (h : lb < ub) (hlen : xs.length = dys.length) :
    (alignZeroGrads xs dys lb ub k).2.2 =
      (List.zipWith (fun x dy => dy * d_i lb ub k x) xs dys).sum /
        numIntervals k ∧
    (alignZeroGrads xs dys lb ub k).2.1 =
      -((List.zipWith (fun x dy => dy * d_i lb ub k x) xs dys).sum /
        numIntervals k) - (dys.map (fun dy => dy * signQ lb)).sum ∧
    (alignZeroGrads xs dys lb ub k).1 =
      List.zipWith
        (fun x dy => if lbAdj lb ub k ≤ x ∧ x ≤ ubAdj lb ub k then dy else 0)
        xs dys := by
  have hdiv := sum_zipWith_div (fun x dy => dy * d_i lb ub k x)
    (numIntervals k) xs dys
  refine ⟨?_, ?_, ?_⟩
  · show (List.zipWith (fun a b => a * b / numIntervals k) dys
      (xs.map (d_i lb ub k))).sum = _
    rw [zipWith_swap_map, ← hdiv]
  · show (List.zipWith
      (fun a b => -(a * b / numIntervals k) - a * signQ lb) dys
      (xs.map (d_i lb ub k))).sum = _
    rw [zipWith_swap_map]
    rw [sum_zipWith_sub (fun x dy => -(dy * d_i lb ub k x / numIntervals k))
      (fun x dy => dy * signQ lb) xs dys]
    rw [sum_zipWith_neg (fun x dy => dy * d_i lb ub k x / numIntervals k)
      xs dys]
    rw [hdiv, sum_map_eq_sum_zipWith (fun dy => dy * signQ lb) xs dys hlen]
  · show d_x dys (xs.map (maskIn (lbAdj lb ub k) (ubAdj lb ub k))) = _
    unfold d_x
    rw [zipWith_swap_map]
    exact zipWith_congr_fn _ _
      (fun x dy => mul_ind_maskIn (lbAdj lb ub k) (ubAdj lb ub k) x dy) xs dys

/-- Witness for claim C2 at a concrete input. -/
theorem claim_C2_witness :
    (alignZeroGrads [2/3, -5, 9] [1, 2, 3] (-1/2) (3/4) 2).2.2 =
      (List.zipWith (fun x dy => dy * d_i (-1/2) (3/4) 2 x)
        [2/3, -5, 9] [1, 2, 3]).sum / numIntervals 2 ∧
    (alignZeroGrads [2/3, -5, 9] [1, 2, 3] (-1/2) (3/4) 2).2.1 =
      -((List.zipWith (fun x dy => dy * d_i (-1/2) (3/4) 2 x)
        [2/3, -5, 9] [1, 2, 3]).sum / numIntervals 2) -
        ([1, 2, 3].map (fun dy => dy * signQ (-1/2))).sum ∧
    (alignZeroGrads [2/3, -5, 9] [1, 2, 3] (-1/2) (3/4) 2).1 =
      List.zipWith
        (fun x dy =>
          if lbAdj (-1/2) (3/4) 2 ≤ x ∧ x ≤ ubAdj (-1/2) (3/4) 2 then dy
          else 0)
        [2/3, -5, 9] [1, 2, 3] :=
  claim_C2_aligned_backward [2/3, -5, 9] [1, 2, 3] (-1/2) (3/4) 2
    (by norm_num) (by norm_num) rfl

lemma zipWith_map_second {α β γ δ : Type} (f : α → γ → δ) (g : β → γ) :
    ∀ (xs : List α) (ys : List β),
      List.zipWith f xs (ys.map g) =
        List.zipWith (fun x y => f x (g y)) xs ys := by
  intro xs
  induction xs with
  | nil => intro ys; simp
  | cons x xs ih =>
    intro ys
    cases ys with
    | nil => simp
    | cons y ys => simp [ih ys]

lemma zipWith_map_first {α β γ δ : Type} (f : γ → β → δ) (g : α → γ) :
    ∀ (xs : List α) (ys : List β),
      List.zipWith f (xs.map g) ys =
        List.zipWith (fun x y => f (g x) y) xs ys := by
  intro xs
  induction xs with
  | nil => intro ys; simp
  | cons x xs ih =>
    intro ys
    cases ys with
    | nil => simp
    | cons y ys => simp [ih ys]

lemma sum_map_mul_zero (dys : List ℚ) :
    (dys.map (fun dy => dy * 0)).sum = 0 := by
  induction dys with
  | nil => rfl
  | cons d ds ih => simp [ih]

lemma cudaFusedForwardElem_aligned (lb ub : ℚ) (k : ℕ) (x : ℚ) :
    cudaFusedForwardElem true lb ub k x = alignedQuantElem lb ub k x := by
  simp only [cudaFusedForwardElem, alignedQuantElem, lbAdj, if_pos]
  ring

/-- Claim C1: the fused closed-form kernel and the reference composition
produce the same forward output and the same three gradients.  For the
free variant the reference is the composition of the clamp backward of
section 4.1 with the straight-through grid-quantizer backward of
section 4.2; for the zero-aligned variant it is the stepwise
numerical-gradient reference of test_quantizers.py lines 92 to 110. -/
theorem claim_C1_reference_fused_agreement (xs dys : List ℚ) (lb ub : ℚ)
    (k : ℕ) (az : Bool) (hk : 1 ≤ k) (h : lb < ub)
    (hlen : xs.length = dys.length) :
    cuda_fake_linear_quant xs lb ub k az = fake_linear_quant xs lb ub k az ∧
    cudaFusedBackward xs dys lb ub k az =
      (if az then alignZeroGrads xs dys lb ub k
       else refFreeGrads xs dys lb ub k) := by
  cases az with
  | true =>
    constructor
    · unfold cuda_fake_linear_quant fake_linear_quant
      rw [if_pos rfl]
      have hfn : cudaFusedForwardElem true lb ub k = alignedQuantElem lb ub k :=
        funext fun x => cudaFusedForwardElem_aligned lb ub k x
      rw [hfn]
    · rw [if_pos rfl]
      have hdiv := sum_zipWith_div (fun x dy => dy * d_i lb ub k x)
        (numIntervals k) xs dys
      have hub : (cudaFusedBackward xs dys lb ub k true).2.2 =
          (alignZeroGrads xs dys lb ub k).2.2 := by
        show (List.zipWith (fun x dy => dy * d_i lb ub k x) xs dys).sum /
            numIntervals k =
          (List.zipWith (fun a b => a * b / numIntervals k) dys
            (xs.map (d_i lb ub k))).sum
        rw [zipWith_swap_map, ← hdiv]
      have hlb : (cudaFusedBackward xs dys lb ub k true).2.1 =
          (alignZeroGrads xs dys lb ub k).2.1 := by
        show -((List.zipWith (fun x dy => dy * d_i lb ub k x) xs dys).sum /
            numIntervals k) - (dys.map (fun dy => dy * signQ lb)).sum =
          (List.zipWith
            (fun a b => -(a * b / numIntervals k) - a * signQ lb) dys
            (xs.map (d_i lb ub k))).sum
        rw [zipWith_swap_map]
        rw [sum_zipWith_sub
          (fun x dy => -(dy * d_i lb ub k x / numIntervals k))
          (fun x dy => dy * signQ lb) xs dys]
        rw [sum_zipWith_neg (fun x dy => dy * d_i lb ub k x / numIntervals k)
          xs dys]
        rw [hdiv, sum_map_eq_sum_zipWith (fun dy => dy * signQ lb) xs dys hlen]
      have hdx : (cudaFusedBackward xs dys lb ub k true).1 =
          (alignZeroGrads xs dys lb ub k).1 := by
        show List.zipWith (fun x dy => dxElem true lb ub k x dy) xs dys =
          d_x dys (xs.map (maskIn (lbAdj lb ub k) (ubAdj lb ub k)))
        unfold d_x dxElem
        rw [zipWith_swap_map]
        exact zipWith_congr_fn _ _ (fun x dy => by simp) xs dys
      calc cudaFusedBackward xs dys lb ub k true
          = ((cudaFusedBackward xs dys lb ub k true).1,
             (cudaFusedBackward xs dys lb ub k true).2.1,
             (cudaFusedBackward xs dys lb ub k true).2.2) := rfl
        _ = ((alignZeroGrads xs dys lb ub k).1,
             (alignZeroGrads xs dys lb ub k).2.1,
             (alignZeroGrads xs dys lb ub k).2.2) := by
              rw [hdx, hlb, hub]
        _ = alignZeroGrads xs dys lb ub k := rfl
  | false =>
    constructor
    · rfl
    · rw [if_neg (by simp)]
      have hzero := sum_map_mul_zero dys
      have hdd : (List.zipWith (fun x dy => gridDdeltaElem lb ub k x dy)
          xs dys).sum =
          (List.zipWith (fun x dy => dy * qi_diff lb ub k x) xs dys).sum := by
        rfl
      have hdx : (cudaFusedBackward xs dys lb ub k false).1 =
          (refFreeGrads xs dys lb ub k).1 := by
        show List.zipWith (fun x dy => dxElem false lb ub k x dy) xs dys =
          d_x (dys.map gridDxcElem) (xs.map (maskIn lb ub))
        unfold d_x dxElem gridDxcElem
        rw [zipWith_swap_map, zipWith_map_second]
        exact zipWith_congr_fn _ _ (fun x dy => by simp) xs dys
      have hub : (cudaFusedBackward xs dys lb ub k false).2.2 =
          (refFreeGrads xs dys lb ub k).2.2 := by
        show (List.zipWith (fun x dy => dy * ind (maskUp ub x)) xs dys).sum +
            (List.zipWith (fun x dy => dy * qi_diff lb ub k x) xs dys).sum /
              numIntervals k =
          (List.zipWith (fun x a => a * ind (maskUp ub x)) xs
            (dys.map gridDxcElem)).sum +
            (List.zipWith (fun x dy => gridDdeltaElem lb ub k x dy)
              xs dys).sum / numIntervals k
        rw [hdd, zipWith_map_second]
        have : (List.zipWith
            (fun x y => gridDxcElem y * ind (maskUp ub x)) xs dys) =
            List.zipWith (fun x dy => dy * ind (maskUp ub x)) xs dys :=
          zipWith_congr_fn _ _ (fun x dy => by simp [gridDxcElem]) xs dys
        rw [this]
      have hlb : (cudaFusedBackward xs dys lb ub k false).2.1 =
          (refFreeGrads xs dys lb ub k).2.1 := by
        show (List.zipWith (fun x dy => dy * ind (maskDown lb x)) xs dys).sum -
            (List.zipWith (fun x dy => dy * qi_diff lb ub k x) xs dys).sum /
              numIntervals k =
          (List.zipWith (fun x a => a * ind (maskDown lb x)) xs
            (dys.map gridDxcElem)).sum +
            (dys.map gridDlbElem).sum +
            -(List.zipWith (fun x dy => gridDdeltaElem lb ub k x dy)
              xs dys).sum / numIntervals k
        rw [hdd, zipWith_map_second]
        have hmask : (List.zipWith
            (fun x y => gridDxcElem y * ind (maskDown lb x)) xs dys) =
            List.zipWith (fun x dy => dy * ind (maskDown lb x)) xs dys :=
          zipWith_congr_fn _ _ (fun x dy => by simp [gridDxcElem]) xs dys
        have hz : (dys.map gridDlbElem).sum = 0 := by
          unfold gridDlbElem
          exact hzero
        rw [hmask, hz, neg_div]
        ring
      calc cudaFusedBackward xs dys lb ub k false
          = ((cudaFusedBackward xs dys lb ub k false).1,
             (cudaFusedBackward xs dys lb ub k false).2.1,
             (cudaFusedBackward xs dys lb ub k false).2.2) := rfl
        _ = ((refFreeGrads xs dys lb ub k).1,
             (refFreeGrads xs dys lb ub k).2.1,
             (refFreeGrads xs dys lb ub k).2.2) := by
              rw [hdx, hlb, hub]
        _ = refFreeGrads xs dys lb ub k := rfl

/-- Witness for claim C1 at a concrete zero-aligned input. -/
theorem claim_C1_witness :
    cuda_fake_linear_quant [2/3, -5, 9] (-1/2) (3/4) 2 true =
      fake_linear_quant [2/3, -5, 9] (-1/2) (3/4) 2 true ∧
    cudaFusedBackward [2/3, -5, 9] [1, 2, 3] (-1/2) (3/4) 2 true =
      (if true then alignZeroGrads [2/3, -5, 9] [1, 2, 3] (-1/2) (3/4) 2
       else refFreeGrads [2/3, -5, 9] [1, 2, 3] (-1/2) (3/4) 2) :=
  claim_C1_reference_fused_agreement [2/3, -5, 9] [1, 2, 3] (-1/2) (3/4) 2
    true (by norm_num) (by norm_num) rfl

lemma zOf_nonneg {lb ub : ℚ} {k : ℕ} (hk : 1 ≤ k) (h : lb < ub) :
    0 ≤ zOf lb ub k := by
  have : (0 : ℚ) ≤ |lb| / deltaOf lb ub k :=
    div_nonneg (abs_nonneg lb) (deltaOf_pos hk h).le
  have := round_monotone this
  rwa [round_zero] at this

lemma zOf_le {lb ub : ℚ} {k : ℕ} (hk : 1 ≤ k) (h : lb < ub)
    (hlb : lb ≤ 0) (hub : 0 ≤ ub) : zOf lb ub k ≤ 2 ^ k - 1 := by
  have habs : |lb| = -lb := abs_of_nonpos hlb
  have harg : |lb| / deltaOf lb ub k ≤ numIntervals k := by
    rw [← div_delta_self (k := k) h]
    apply (div_le_div_iff_of_pos_right (deltaOf_pos hk h)).mpr
    rw [habs]
    linarith
  have := round_monotone harg
  rwa [round_numIntervals] at this

/-- Counterexample to claim C4 as stated: with lb = 10, ub = 11, k = 1,
align_zero = true (a valid input: ub > lb, k ≥ 1) the adjusted grid is
the two points -10 and -9, so the value 0 is not one of the N + 1 grid
points. -/
theorem claim_C4_counterexample :
    (10 : ℚ) < 11 ∧ (1 : ℕ) ≤ 1 ∧
    ¬ ∃ i : ℤ, 0 ≤ i ∧ (i : ℚ) ≤ numIntervals 1 ∧
      lbAdj 10 11 1 + (i : ℚ) * deltaOf 10 11 1 = 0 := by
  refine ⟨by norm_num, le_refl 1, ?_⟩
  rintro ⟨i, h0, h1, h2⟩
  have hn : numIntervals 1 = 1 := by norm_num [numIntervals]
  have hdelta : deltaOf 10 11 1 = 1 := by rw [deltaOf, hn]; norm_num
  have hz : zOf 10 11 1 = 10 := by
    rw [zOf, hdelta]
    rw [abs_of_nonneg (by norm_num : (0:ℚ) ≤ 10)]
    norm_num [round_eq]
  have hlb : lbAdj 10 11 1 = -10 := by
    rw [lbAdj, hz, hdelta]
    norm_num
  rw [hlb, hdelta, mul_one] at h2
  rw [hn] at h1
  have hi : (i : ℚ) = 10 := by linarith
  have hi10 : i = 10 := by exact_mod_cast hi
  have hi1 : i ≤ 1 := by exact_mod_cast h1
  omega

/-- Claim C4 amended: every output of the operator lies on the grid of
N + 1 points spanned by the (possibly zero-adjusted) bounds; in the
zero-aligned case the value 0 is one of the grid points provided
lb ≤ 0 ≤ ub (for bounds on one side of zero the adjusted grid need not
contain 0). -/
theorem claim_C4_grid_membership (xs : List ℚ) (lb ub : ℚ) (k : ℕ)
    (az : Bool) (hk : 1 ≤ k) (h : lb < ub) :
    (∀ y ∈ fake_linear_quant xs lb ub k az, ∃ i : ℤ, 0 ≤ i ∧
      (i : ℚ) ≤ numIntervals k ∧
      y = (if az then lbAdj lb ub k else lb) + (i : ℚ) * deltaOf lb ub k) ∧
    (az = true → lb ≤ 0 → 0 ≤ ub → ∃ i : ℤ, 0 ≤ i ∧
      (i : ℚ) ≤ numIntervals k ∧
      (if az then lbAdj lb ub k else lb) + (i : ℚ) * deltaOf lb ub k = 0) := by
  constructor
  · intro y hy
    cases az with
    | true =>
      simp only [fake_linear_quant, if_pos, List.mem_map] at hy
      obtain ⟨x, _, hx⟩ := hy
      refine ⟨iA lb ub k x, iA_nonneg hk h, ?_, ?_⟩
      · rw [numIntervals_eq_intCast]
        exact_mod_cast iA_le (x := x) hk h
      · rw [← hx]
        rfl
    | false =>
      have hy2 : y ∈ xs.map (freeQuantElem lb ub k) := hy
      rw [List.mem_map] at hy2
      obtain ⟨x, _, hx⟩ := hy2
      refine ⟨round (tOf lb ub k x), roundT_nonneg hk h, ?_, ?_⟩
      · rw [numIntervals_eq_intCast]
        exact_mod_cast roundT_le (x := x) hk h
      · rw [← hx]
        show freeQuantElem lb ub k x =
          lb + ((round (tOf lb ub k x) : ℤ) : ℚ) * deltaOf lb ub k
        unfold freeQuantElem
        ring
  · intro haz hlb hub
    subst haz
    refine ⟨zOf lb ub k, zOf_nonneg hk h, ?_, ?_⟩
    · rw [numIntervals_eq_intCast]
      exact_mod_cast zOf_le hk h hlb hub
    · simp only [if_pos]
      unfold lbAdj
      ring

/-- Witness for the amended claim C4 at a concrete zero-aligned input. -/
theorem claim_C4_witness :
    (∃ i : ℤ, 0 ≤ i ∧ (i : ℚ) ≤ numIntervals 2 ∧
      alignedQuantElem (-1/2) (3/4) 2 (2/3) =
        (if true then lbAdj (-1/2) (3/4) 2 else (-1/2 : ℚ)) +
          (i : ℚ) * deltaOf (-1/2) (3/4) 2) ∧
    (∃ i : ℤ, 0 ≤ i ∧ (i : ℚ) ≤ numIntervals 2 ∧
      (if true then lbAdj (-1/2) (3/4) 2 else (-1/2 : ℚ)) +
        (i : ℚ) * deltaOf (-1/2) (3/4) 2 = 0) :=
  ⟨(claim_C4_grid_membership [2/3] (-1/2) (3/4) 2 true (by norm_num)
      (by norm_num)).1 (alignedQuantElem (-1/2) (3/4) 2 (2/3))
      (by simp [fake_linear_quant]),
   (claim_C4_grid_membership [2/3] (-1/2) (3/4) 2 true (by norm_num)
      (by norm_num)).2 rfl (by norm_num) (by norm_num)⟩

lemma qi_diff_of_up {lb ub x : ℚ} {k : ℕ} (hk : 1 ≤ k) (h : lb < ub)
    (hx : ub < x) : qi_diff lb ub k x = 0 := by
  have hc : clampElem lb ub x = ub := by
    unfold clampElem
    rw [if_neg (by linarith), if_pos hx]
  have ht : tOf lb ub k x = numIntervals k := by
    unfold tOf
    rw [hc, div_delta_self (k := k) h]
  unfold qi_diff
  rw [ht, round_numIntervals, ← numIntervals_eq_intCast, sub_self]

lemma qi_diff_of_down {lb ub x : ℚ} {k : ℕ} (hx : x < lb) :
    qi_diff lb ub k x = 0 := by
  have hc : clampElem lb ub x = lb := by
    unfold clampElem
    rw [if_pos hx]
  have ht : tOf lb ub k x = 0 := by
    unfold tOf
    rw [hc, sub_self, zero_div]
  unfold qi_diff
  rw [ht, round_zero]
  norm_num

/-- Counterexample to claim C7 as stated: with lb = -2/5, ub = 3/5,
k = 1, align_zero = true (a valid input) and the element x = 4/5
strictly above ub, the adjusted upper bound is 1, so the element is
still in range and its input gradient is the full dy = 1, not 0; and
the element x = 2, strictly above even the adjusted bound, contributes
2/5 to d_ub rather than its full upstream gradient dy = 1. -/
theorem claim_C7_counterexample :
    (-2/5 : ℚ) < 3/5 ∧ (1 : ℕ) ≤ 1 ∧ (3/5 : ℚ) < 4/5 ∧
    dxElem true (-2/5) (3/5) 1 (4/5) 1 = 1 ∧
    (3/5 : ℚ) < 2 ∧ dubElem true (-2/5) (3/5) 1 2 1 = 2/5 := by
  have hn : numIntervals 1 = 1 := by norm_num [numIntervals]
  have hd : deltaOf (-2/5) (3/5) 1 = 1 := by rw [deltaOf, hn]; norm_num
  have habs : |(-2/5 : ℚ)| = 2/5 := by
    rw [abs_of_nonpos (by norm_num : (-2/5 : ℚ) ≤ 0)]
    norm_num
  have hz : zOf (-2/5) (3/5) 1 = 0 := by
    rw [zOf, hd, habs]
    norm_num [round_eq]
  have hlbA : lbAdj (-2/5) (3/5) 1 = 0 := by
    rw [lbAdj, hz, hd]
    norm_num
  have hubA : ubAdj (-2/5) (3/5) 1 = 1 := by
    rw [ubAdj, hn, hz, hd]
    norm_num
  refine ⟨by norm_num, le_refl 1, by norm_num, ?_, by norm_num, ?_⟩
  · show 1 *
      ind (maskIn (lbAdj (-2/5) (3/5) 1) (ubAdj (-2/5) (3/5) 1) (4/5)) = 1
    rw [hlbA, hubA]
    norm_num [maskIn, ind]
  · have hxc : xcA (-2/5) (3/5) 1 2 = 1 := by
      unfold xcA
      rw [hlbA, hubA]
      unfold clampElem
      norm_num
    have hiA : iA (-2/5) (3/5) 1 2 = 1 := by
      unfold iA
      rw [hxc, hlbA, hd]
      norm_num [round_eq]
    have hdi : d_i (-2/5) (3/5) 1 2 = 2/5 := by
      unfold d_i
      rw [hiA, hz, hxc, hlbA, hd, habs]
      norm_num
    show 1 * d_i (-2/5) (3/5) 1 2 / numIntervals 1 = 2/5
    rw [hdi, hn]
    norm_num

/-- Claim C7 amended: the saturation-gradient law holds as stated for
the free operator (align_zero = false); for the zero-aligned operator
saturation is relative to the adjusted bounds, where dx = 0 still holds,
but the bound contribution of a saturated element is dy * d_i / N
rather than the full dy. -/
theorem claim_C7_saturation (lb ub x dy : ℚ) (k : ℕ) (hk : 1 ≤ k)
    (h : lb < ub) :
    (ub < x → dxElem false lb ub k x dy = 0 ∧
      dubElem false lb ub k x dy = dy ∧ dlbElem false lb ub k x dy = 0) ∧
    (x < lb → dxElem false lb ub k x dy = 0 ∧
      dlbElem false lb ub k x dy = dy ∧ dubElem false lb ub k x dy = 0) ∧
    (ubAdj lb ub k < x → dxElem true lb ub k x dy = 0) ∧
    (x < lbAdj lb ub k → dxElem true lb ub k x dy = 0) := by
  refine ⟨?_, ?_, ?_, ?_⟩
  · intro hx
    have hqi := qi_diff_of_up (x := x) hk h hx
    have hmask : maskIn lb ub x = false := by
      simp [maskIn, not_le.mpr hx]
    refine ⟨?_, ?_, ?_⟩
    · show dy * ind (maskIn lb ub x) = 0
      rw [hmask]
      simp [ind]
    · show dy * ind (maskUp ub x) + dy * qi_diff lb ub k x / numIntervals k =
        dy
      rw [hqi, maskUp, decide_eq_true hx]
      simp [ind]
    · show dy * ind (maskDown lb x) - dy * qi_diff lb ub k x / numIntervals k =
        0
      have : ¬ x < lb := by linarith
      rw [hqi, maskDown, decide_eq_false this]
      simp [ind]
  · intro hx
    have hqi := @qi_diff_of_down lb ub x k hx
    have hmask : maskIn lb ub x = false := by
      simp [maskIn, not_le.mpr hx]
    refine ⟨?_, ?_, ?_⟩
    · show dy * ind (maskIn lb ub x) = 0
      rw [hmask]
      simp [ind]
    · show dy * ind (maskDown lb x) - dy * qi_diff lb ub k x / numIntervals k =
        dy
      rw [hqi, maskDown, decide_eq_true hx]
      simp [ind]
    · show dy * ind (maskUp ub x) + dy * qi_diff lb ub k x / numIntervals k =
        0
      have : ¬ ub < x := by linarith
      rw [hqi, maskUp, decide_eq_false this]
      simp [ind]
  · intro hx
    show dy * ind (maskIn (lbAdj lb ub k) (ubAdj lb ub k) x) = 0
    have hmask : maskIn (lbAdj lb ub k) (ubAdj lb ub k) x = false := by
      simp [maskIn, not_le.mpr hx]
    rw [hmask]
    simp [ind]
  · intro hx
    show dy * ind (maskIn (lbAdj lb ub k) (ubAdj lb ub k) x) = 0
    have hmask : maskIn (lbAdj lb ub k) (ubAdj lb ub k) x = false := by
      simp [maskIn, not_le.mpr hx]
    rw [hmask]
    simp [ind]

/-- Witness for the amended claim C7: a free-variant element strictly
above ub routes its full upstream gradient to d_ub and none to dx or
d_lb. -/
theorem claim_C7_witness :
    dxElem false 0 1 1 2 7 = 0 ∧ dubElem false 0 1 1 2 7 = 7 ∧
    dlbElem false 0 1 1 2 7 = 0 :=
  (claim_C7_saturation 0 1 2 7 1 (le_refl 1) (by norm_num)).1 (by norm_num)

/-- Claim C8: fake quantization is idempotent: re-quantizing an
already-quantized tensor with the same bounds and bit-width returns it
unchanged, in both operator variants. -/
theorem claim_C8_idempotent (xs : List ℚ) (lb ub : ℚ) (k : ℕ) (az : Bool)
    (hk : 1 ≤ k) (h : lb < ub) :
    fake_linear_quant (fake_linear_quant xs lb ub k az) lb ub k az =
      fake_linear_quant xs lb ub k az := by
  cases az with
  | true =>
    show (xs.map (alignedQuantElem lb ub k)).map (alignedQuantElem lb ub k) =
      xs.map (alignedQuantElem lb ub k)
    rw [List.map_map]
    have hfn : alignedQuantElem lb ub k ∘ alignedQuantElem lb ub k =
        alignedQuantElem lb ub k :=
      funext fun x => alignedQuantElem_idem hk h
    rw [hfn]
  | false =>
    show (xs.map (freeQuantElem lb ub k)).map (freeQuantElem lb ub k) =
      xs.map (freeQuantElem lb ub k)
    rw [List.map_map]
    have hfn : freeQuantElem lb ub k ∘ freeQuantElem lb ub k =
        freeQuantElem lb ub k :=
      funext fun x => freeQuantElem_idem hk h
    rw [hfn]

/-- Witness for claim C8 at a concrete input covering both variants. -/
theorem claim_C8_witness :
    fake_linear_quant (fake_linear_quant [2/3, -5, 9] (-1/2) (3/4) 2 false)
        (-1/2) (3/4) 2 false =
      fake_linear_quant [2/3, -5, 9] (-1/2) (3/4) 2 false ∧
    fake_linear_quant (fake_linear_quant [2/3, -5, 9] (-1/2) (3/4) 2 true)
        (-1/2) (3/4) 2 true =
      fake_linear_quant [2/3, -5, 9] (-1/2) (3/4) 2 true :=
  ⟨claim_C8_idempotent [2/3, -5, 9] (-1/2) (3/4) 2 false (by norm_num)
      (by norm_num),
   claim_C8_idempotent [2/3, -5, 9] (-1/2) (3/4) 2 true (by norm_num)
      (by norm_num)⟩

/-- Claim C9: the guarded forward refuses bound pairs with ub ≤ lb by
raising InvalidBoundsError, and under the precondition ub > lb (with a
valid bit-width) the error branch is unreachable and the operator result
is returned. -/
theorem claim_C9_invalid_bounds (xs : List ℚ) (lb ub : ℚ) (k : ℕ)
    (az : Bool) :
    (ub ≤ lb →
      fake_quantize xs lb ub k az = Except.error "InvalidBoundsError") ∧
    (lb < ub → 1 ≤ k →
      fake_quantize xs lb ub k az =
        Except.ok (fake_linear_quant xs lb ub k az)) := by
  constructor
  · intro hle
    unfold fake_quantize
    rw [if_pos hle]
  · intro hlt hk
    unfold fake_quantize
    rw [if_neg (not_le.mpr hlt), if_neg (by omega)]

/-- Witness for claim C9: one rejected and one accepted concrete call. -/
theorem claim_C9_witness :
    fake_quantize [1/2] 1 0 2 true = Except.error "InvalidBoundsError" ∧
    fake_quantize [1/2] 0 1 2 true =
      Except.ok (fake_linear_quant [1/2] 0 1 2 true) :=
  ⟨(claim_C9_invalid_bounds [1/2] 1 0 2 true).1 (by norm_num),
   (claim_C9_invalid_bounds [1/2] 0 1 2 true).2 (by norm_num) (by norm_num)⟩

/-- Per-channel slice of a tensor with its own scalar bound pair: the
channel entry of the length-C bound vectors together with the trailing
elements of that channel and their upstream gradients (the broadcast
layout produced by _make_broadcast in test_quantizers.py lines 15 to
21). -/
structure Channel where
  lb : ℚ
  ub : ℚ
  xs : List ℚ
  dys : List ℚ

/-- Channel-wise forward: each bound entry is broadcast across all
trailing positions of its channel slice. -/
def channelForward (k : ℕ) (az : Bool) (cs : List Channel) :
    List (List ℚ) :=
  cs.map fun c =>
    c.xs.map fun x =>
      if az then alignedQuantElem c.lb c.ub k x else freeQuantElem c.lb c.ub k x

/-- Channel-wise d_ub: the elementwise closed-form contributions are
summed over every position except the channel dimension
(test_quantizers.py line 199). -/
def channelDub (k : ℕ) (az : Bool) (cs : List Channel) : List ℚ :=
  cs.map fun c =>
    (List.zipWith (fun x dy => dubElem az c.lb c.ub k x dy) c.xs c.dys).sum

/-- Channel-wise d_lb (test_quantizers.py line 200). -/
def channelDlb (k : ℕ) (az : Bool) (cs : List Channel) : List ℚ :=
  cs.map fun c =>
    (List.zipWith (fun x dy => dlbElem az c.lb c.ub k x dy) c.xs c.dys).sum

/-- Channel-wise dx: elementwise gradient within each channel slice. -/
def channelDx (k : ℕ) (az : Bool) (cs : List Channel) : List (List ℚ) :=
  cs.map fun c =>
    List.zipWith (fun x dy => dxElem az c.lb c.ub k x dy) c.xs c.dys

lemma channel_forward_scalar (k : ℕ) (az : Bool) (c : Channel) :
    (c.xs.map fun x =>
      if az then alignedQuantElem c.lb c.ub k x
      else freeQuantElem c.lb c.ub k x) =
    fake_linear_quant c.xs c.lb c.ub k az := by
  cases az <;> rfl

lemma channel_dub_scalar (k : ℕ) (az : Bool) (c : Channel) :
    (List.zipWith (fun x dy => dubElem az c.lb c.ub k x dy) c.xs c.dys).sum =
    (if az then (alignZeroGrads c.xs c.dys c.lb c.ub k).2.2
     else (freeGrads c.xs c.dys c.lb c.ub k).2.2) := by
  cases az with
  | true =>
    rw [if_pos rfl]
    show (List.zipWith (fun x dy => dy * d_i c.lb c.ub k x / numIntervals k)
        c.xs c.dys).sum =
      (List.zipWith (fun a b => a * b / numIntervals k) c.dys
        (c.xs.map (d_i c.lb c.ub k))).sum
    rw [zipWith_swap_map]
  | false =>
    rw [if_neg (by simp)]
    show (List.zipWith
        (fun x dy => dy * ind (maskUp c.ub x) +
          dy * qi_diff c.lb c.ub k x / numIntervals k) c.xs c.dys).sum =
      (List.zipWith (fun x dy => dy * ind (maskUp c.ub x)) c.xs c.dys).sum +
        (List.zipWith (fun x dy => dy * qi_diff c.lb c.ub k x / numIntervals k)
          c.xs c.dys).sum
    exact sum_zipWith_add _ _ c.xs c.dys

lemma channel_dlb_scalar (k : ℕ) (az : Bool) (c : Channel) :
    (List.zipWith (fun x dy => dlbElem az c.lb c.ub k x dy) c.xs c.dys).sum =
    (if az then (alignZeroGrads c.xs c.dys c.lb c.ub k).2.1
     else (freeGrads c.xs c.dys c.lb c.ub k).2.1) := by
  cases az with
  | true =>
    rw [if_pos rfl]
    show (List.zipWith
        (fun x dy => -(dy * d_i c.lb c.ub k x / numIntervals k) -
          dy * signQ c.lb) c.xs c.dys).sum =
      (List.zipWith
        (fun a b => -(a * b / numIntervals k) - a * signQ c.lb) c.dys
        (c.xs.map (d_i c.lb c.ub k))).sum
    rw [zipWith_swap_map]
  | false =>
    rw [if_neg (by simp)]
    show (List.zipWith
        (fun x dy => dy * ind (maskDown c.lb x) -
          dy * qi_diff c.lb c.ub k x / numIntervals k) c.xs c.dys).sum =
      (List.zipWith (fun x dy => dy * ind (maskDown c.lb x)) c.xs c.dys).sum -
        (List.zipWith (fun x dy => dy * qi_diff c.lb c.ub k x / numIntervals k)
          c.xs c.dys).sum
    exact sum_zipWith_sub _ _ c.xs c.dys

lemma channel_dx_scalar (k : ℕ) (az : Bool) (c : Channel) :
    List.zipWith (fun x dy => dxElem az c.lb c.ub k x dy) c.xs c.dys =
    (if az then (alignZeroGrads c.xs c.dys c.lb c.ub k).1
     else (freeGrads c.xs c.dys c.lb c.ub k).1) := by
  cases az with
  | true =>
    rw [if_pos rfl]
    show List.zipWith
        (fun x dy => dy * ind (maskIn (lbAdj c.lb c.ub k) (ubAdj c.lb c.ub k) x))
        c.xs c.dys =
      d_x c.dys (c.xs.map (maskIn (lbAdj c.lb c.ub k) (ubAdj c.lb c.ub k)))
    unfold d_x
    rw [zipWith_swap_map]
  | false =>
    rw [if_neg (by simp)]
    show List.zipWith (fun x dy => dy * ind (maskIn c.lb c.ub x)) c.xs c.dys =
      d_x c.dys (c.xs.map (maskIn c.lb c.ub))
    unfold d_x
    rw [zipWith_swap_map]

/-- Claim C6: with per-channel bound vectors, the forward pass broadcasts
each bound entry over its channel slice and the bound gradients reduce
(sum) the elementwise contributions over every non-channel position, so
each channel behaves exactly as the scalar-bound laws applied to that
slice; the rule is the same for the zero-aligned and free variants, and
scalar bounds are the single-channel case. -/
theorem claim_C6_channel_broadcast_reduce (k : ℕ) (az : Bool)
    (cs : List Channel) :
    channelForward k az cs =
      cs.map (fun c => fake_linear_quant c.xs c.lb c.ub k az) ∧
    channelDub k az cs =
      cs.map (fun c =>
        if az then (alignZeroGrads c.xs c.dys c.lb c.ub k).2.2
        else (freeGrads c.xs c.dys c.lb c.ub k).2.2) ∧
    channelDlb k az cs =
      cs.map (fun c =>
        if az then (alignZeroGrads c.xs c.dys c.lb c.ub k).2.1
        else (freeGrads c.xs c.dys c.lb c.ub k).2.1) ∧
    channelDx k az cs =
      cs.map (fun c =>
        if az then (alignZeroGrads c.xs c.dys c.lb c.ub k).1
        else (freeGrads c.xs c.dys c.lb c.ub k).1) := by
  refine ⟨?_, ?_, ?_, ?_⟩
  · unfold channelForward
    have hfn : (fun c : Channel =>
        c.xs.map fun x =>
          if az then alignedQuantElem c.lb c.ub k x
          else freeQuantElem c.lb c.ub k x) =
        fun c : Channel => fake_linear_quant c.xs c.lb c.ub k az :=
      funext fun c => channel_forward_scalar k az c
    rw [hfn]
  · unfold channelDub
    have hfn : (fun c : Channel =>
        (List.zipWith (fun x dy => dubElem az c.lb c.ub k x dy)
          c.xs c.dys).sum) =
        fun c : Channel =>
          if az then (alignZeroGrads c.xs c.dys c.lb c.ub k).2.2
          else (freeGrads c.xs c.dys c.lb c.ub k).2.2 :=
      funext fun c => channel_dub_scalar k az c
    rw [hfn]
  · unfold channelDlb
    have hfn : (fun c : Channel =>
        (List.zipWith (fun x dy => dlbElem az c.lb c.ub k x dy)
          c.xs c.dys).sum) =
        fun c : Channel =>
          if az then (alignZeroGrads c.xs c.dys c.lb c.ub k).2.1
          else (freeGrads c.xs c.dys c.lb c.ub k).2.1 :=
      funext fun c => channel_dlb_scalar k az c
    rw [hfn]
  · unfold channelDx
    have hfn : (fun c : Channel =>
        List.zipWith (fun x dy => dxElem az c.lb c.ub k x dy) c.xs c.dys) =
        fun c : Channel =>
          if az then (alignZeroGrads c.xs c.dys c.lb c.ub k).1
          else (freeGrads c.xs c.dys c.lb c.ub k).1 :=
      funext fun c => channel_dx_scalar k az c
    rw [hfn]

end QuantPack
